import Mathlib

/-!
Verification of the conversation-context cache and request-rate governor of a
Slack assistant bot. The definitions below are a shallow embedding of
`src/threadContext.js` (ThreadContextCache, getThreadHistory), `src/aiService.js`
(checkRateLimit) and the fold-and-re-put step of the app_mention handler in
`src/app.js`. JavaScript Map objects are embedded as insertion-ordered
association lists with the exact Map semantics (set on an existing key replaces
the value in place, set on a fresh key appends at the back, delete removes the
entry, iteration and `keys().next()` follow insertion order); `Date.now()`
becomes an explicit integer-millisecond clock parameter.
-/

set_option linter.unusedVariables false

/-- Embedding of a JavaScript Map: an insertion-ordered association list. -/
abbrev JsMap (α β : Type) := List (α × β)

/-- JavaScript `Map.get`: the value stored at the first (unique) matching key. -/
def jsMapGet [DecidableEq α] : JsMap α β → α → Option β
  | [], _ => none
  | (k, v) :: rest, key => if k = key then some v else jsMapGet rest key

/-- JavaScript `Map.set`: replace the value in place if the key is present,
otherwise append the new entry at the back of the insertion order. -/
def jsMapSet [DecidableEq α] : JsMap α β → α → β → JsMap α β
  | [], key, val => [(key, val)]
  | (k, v) :: rest, key, val =>
    if k = key then (key, val) :: rest else (k, v) :: jsMapSet rest key val

/-- JavaScript `Map.delete`: remove the entry with the given key. -/
def jsMapDelete [DecidableEq α] : JsMap α β → α → JsMap α β
  | [], _ => []
  | (k, v) :: rest, key => if k = key then rest else (k, v) :: jsMapDelete rest key

/-- JavaScript `Map.has`. -/
def jsMapHasKey [DecidableEq α] (m : JsMap α β) (key : α) : Bool :=
  m.any (fun p => decide (p.1 = key))

/-- JavaScript `map.keys().next().value`: the first key in insertion order. -/
def jsMapFirstKey (m : JsMap α β) : Option α :=
  m.head?.map Prod.fst

/-- One element of a cached conversation history: the objects
`{ role: "user" | "assistant", content }` built by the source. -/
structure ConversationTurn where
  role : String
  content : String
deriving DecidableEq, Repr

/-- THREAD_CONFIG.CACHE_TTL_MINUTES from src/threadContext.js. -/
def THREAD_CONFIG_CACHE_TTL_MINUTES : Int := 60

/-- THREAD_CONFIG.MAX_CONTEXT_MESSAGES from src/threadContext.js. -/
def THREAD_CONFIG_MAX_CONTEXT_MESSAGES : Nat := 100

/-- THREAD_CONFIG.MAX_CACHE_SIZE from src/threadContext.js. -/
def THREAD_CONFIG_MAX_CACHE_SIZE : Nat := 1000

/-- One value of the `this.cache` map: the object
`{ context, timestamp: Date.now() }` stored by `ThreadContextCache.set`. -/
structure CacheEntry where
  context : List ConversationTurn
  timestamp : Int
deriving DecidableEq, Repr

/-- State of a ThreadContextCache instance: the `cache` Map keyed by threadId
and the `ttl` in milliseconds fixed by the constructor. -/
structure ThreadContextCache where
  cache : JsMap String CacheEntry
  ttl : Int
deriving DecidableEq

/-- The constructor `new ThreadContextCache(ttlMinutes)`: empty map,
`ttl = ttlMinutes * 60 * 1000`. -/
def mkThreadContextCache (ttlMinutes : Int := THREAD_CONFIG_CACHE_TTL_MINUTES) :
    ThreadContextCache :=
  { cache := [], ttl := ttlMinutes * 60 * 1000 }

/-- ThreadContextCache.set from src/threadContext.js: when
`cache.size >= MAX_CACHE_SIZE` delete the first key in insertion order
(this happens whether or not `threadId` is already present), then
`cache.set(threadId, { context, timestamp: now })`. -/
def ThreadContextCache.set (c : ThreadContextCache) (threadId : String)
    (context : List ConversationTurn) (now : Int) : ThreadContextCache :=
  let cache1 :=
    if THREAD_CONFIG_MAX_CACHE_SIZE ≤ c.cache.length then
      match jsMapFirstKey c.cache with
      | some firstKey => jsMapDelete c.cache firstKey
      | none => c.cache
    else c.cache
  { cache := jsMapSet cache1 threadId { context := context, timestamp := now },
    ttl := c.ttl }

/-- ThreadContextCache.get from src/threadContext.js, with `Date.now()` passed
in as `now`. Returns the looked-up context (or none) together with the
possibly-mutated cache state (lazy expiry deletes the entry). -/
def ThreadContextCache.get (c : ThreadContextCache) (threadId : String)
    (now : Int) : Option (List ConversationTurn) × ThreadContextCache :=
  match jsMapGet c.cache threadId with
  | none => (none, c)
  | some entry =>
    if c.ttl < now - entry.timestamp then
      (none, { cache := jsMapDelete c.cache threadId, ttl := c.ttl })
    else
      (some entry.context, c)

/-- ThreadContextCache.cleanup from src/threadContext.js: delete every entry
with `now - entry.timestamp > ttl`. -/
def ThreadContextCache.cleanup (c : ThreadContextCache) (now : Int) :
    ThreadContextCache :=
  { cache := c.cache.filter (fun p => decide (now - p.2.timestamp ≤ c.ttl)),
    ttl := c.ttl }

/-- Run a sequence of `set` calls (threadId, context, clock value). -/
def runPuts (c : ThreadContextCache) :
    List (String × List ConversationTurn × Int) → ThreadContextCache
  | [] => c
  | (k, ctx, now) :: rest => runPuts (c.set k ctx now) rest

/-- RATE_LIMIT_WINDOW from src/aiService.js (one minute in milliseconds). -/
def RATE_LIMIT_WINDOW : Int := 60000

/-- MAX_REQUESTS_PER_WINDOW from src/aiService.js. -/
def MAX_REQUESTS_PER_WINDOW : Nat := 10

/-- The module-level `rateLimitMap` of src/aiService.js: userId to the array of
request timestamps. -/
abbrev RateLimitMap := JsMap String (List Int)

/-- checkRateLimit from src/aiService.js, with the global map passed as
explicit state and `Date.now()` as `now`. On denial the map is NOT written
(the filtered copy is discarded). -/
def checkRateLimit (rateLimitMap : RateLimitMap) (userId : String) (now : Int) :
    Bool × RateLimitMap :=
  let userRequests := (jsMapGet rateLimitMap userId).getD []
  let recentRequests := userRequests.filter
    (fun time => decide (now - time < RATE_LIMIT_WINDOW))
  if MAX_REQUESTS_PER_WINDOW ≤ recentRequests.length then
    (false, rateLimitMap)
  else
    (true, jsMapSet rateLimitMap userId (recentRequests ++ [now]))

/-- Run a sequence of checkRateLimit calls (userId, clock value), keeping only
the final map state. -/
def runRate (m : RateLimitMap) : List (String × Int) → RateLimitMap
  | [] => m
  | (u, t) :: rest => runRate (checkRateLimit m u t).2 rest

/-- Run a sequence of checkRateLimit calls for one user, collecting the
returned booleans and the final map state. -/
def runRateResults (m : RateLimitMap) (userId : String) :
    List Int → List Bool × RateLimitMap
  | [] => ([], m)
  | t :: rest =>
    let step := checkRateLimit m userId t
    let tail := runRateResults step.2 userId rest
    (step.1 :: tail.1, tail.2)

/-- One raw Slack message as consumed by getThreadHistory:
`{ user, bot_id, subtype, text, ts }`. Absent string fields are `none`; the
`text` field uses the empty string for both JS `undefined` and `""` (the code
only ever tests its truthiness and copies it). The `ts` string only matters
through its numeric order, embedded as an integer. -/
structure SlackMessage where
  user : Option String
  bot_id : Option String
  subtype : Option String
  text : String
  ts : Int
deriving DecidableEq, Repr

/-- JavaScript truthiness of an optional string field (undefined and the empty
string are falsy). -/
def jsTruthyOpt : Option String → Bool
  | none => false
  | some s => !(s == "")

/-- The skip condition of the getThreadHistory loop:
`message.subtype && message.subtype !== "bot_message"`. -/
def skipsMessage (m : SlackMessage) : Bool :=
  jsTruthyOpt m.subtype && !(m.subtype == some "bot_message")

/-- The bot-authorship condition of the getThreadHistory loop:
`message.user === botUserId || message.bot_id === botUserId`. -/
def isBotAuthored (botUserId : String) (m : SlackMessage) : Bool :=
  m.user == some botUserId || m.bot_id == some botUserId

/-- The message-formatting loop of getThreadHistory from src/threadContext.js,
carrying `userMessageCount`: skip unrecognized subtypes, classify bot-authored
messages as assistant turns, classify other messages with truthy text as user
turns, and break once the user count reaches MAX_CONTEXT_MESSAGES. -/
def formatThreadMessages (botUserId : String) :
    List SlackMessage → Nat → List ConversationTurn
  | [], _ => []
  | message :: rest, userMessageCount =>
    if skipsMessage message then
      formatThreadMessages botUserId rest userMessageCount
    else if isBotAuthored botUserId message then
      { role := "assistant", content := message.text } ::
        formatThreadMessages botUserId rest userMessageCount
    else if message.text != "" then
      if THREAD_CONFIG_MAX_CONTEXT_MESSAGES ≤ userMessageCount + 1 then
        [{ role := "user", content := message.text }]
      else
        { role := "user", content := message.text } ::
          formatThreadMessages botUserId rest (userMessageCount + 1)
    else
      formatThreadMessages botUserId rest userMessageCount

/-- The chronological sort of getThreadHistory:
`messages.sort((a, b) => parseFloat(a.ts) - parseFloat(b.ts))` (a stable sort
by numeric ts). -/
def sortMessages (messages : List SlackMessage) : List SlackMessage :=
  messages.mergeSort (fun a b => decide (a.ts ≤ b.ts))

/-- getThreadHistory from src/threadContext.js. The external
`client.conversations.replies` call is embedded as its outcome: either an
error (the catch branch logs and returns `[]`) or the raw message array, which
is sorted chronologically and formatted with the counting loop. -/
def getThreadHistory (repliesResult : Except String (List SlackMessage))
    (botUserId : String) : List ConversationTurn :=
  match repliesResult with
  | .error _ => []
  | .ok raw => formatThreadMessages botUserId (sortMessages raw) 0

/-- The fold-and-trim step of the app_mention handler in src/app.js:
`updatedHistory = [...conversationHistory, userTurn, assistantTurn]`, then
`splice` away the front overflow so the length never exceeds
`MAX_CONTEXT_MESSAGES * 2`. -/
def foldContext (conversationHistory : List ConversationTurn)
    (userTurn assistantTurn : ConversationTurn) : List ConversationTurn :=
  let updatedHistory := conversationHistory ++ [userTurn, assistantTurn]
  if THREAD_CONFIG_MAX_CONTEXT_MESSAGES * 2 < updatedHistory.length then
    updatedHistory.drop (updatedHistory.length - THREAD_CONFIG_MAX_CONTEXT_MESSAGES * 2)
  else
    updatedHistory

/-- Distinct single-character thread keys used for concrete capacity states. -/
def mkKey (i : Nat) : String := String.mk [Char.ofNat i]
/-- A tiny concrete cache used to witness the get/cleanup claims: one stale
entry written at time 0 and one fresh entry written at time 7000000, with the
default TTL of 3600000 ms. -/
def witnessCache : ThreadContextCache :=
  { cache := [("old", { context := [{ role := "user", content := "hi" }], timestamp := 0 }),
              ("new", { context := [{ role := "assistant", content := "yo" }], timestamp := 7000000 })],
    ttl := 3600000 }
/-- The cache instance constructed at module load in src/threadContext.js:
empty map, default TTL of 3600000 ms. -/
def emptyCache : ThreadContextCache := mkThreadContextCache
/-- One put per key mkKey 0 .. mkKey 999, enough to fill the store to
capacity. -/
def fillEntryOps : List (String × List ConversationTurn × Int) :=
  (List.range THREAD_CONFIG_MAX_CACHE_SIZE).map (fun i => (mkKey i, [], 0))
/-- The store reached by running the 1000 fill puts from the empty cache. -/
def filledCache : ThreadContextCache := runPuts emptyCache fillEntryOps
/-- The at-capacity map contents of filledCache, written directly. -/
def bigList : JsMap String CacheEntry :=
  (List.range THREAD_CONFIG_MAX_CACHE_SIZE).map
    (fun i => (mkKey i, { context := [], timestamp := 0 }))
/-- The same at-capacity store, written directly rather than via runPuts. -/
def bigCache : ThreadContextCache := { cache := bigList, ttl := 3600000 }
/-- The tail of bigList: the at-capacity contents minus the oldest entry. -/
def bigTail : JsMap String CacheEntry := bigList.tail
/-- Specification-side classifier: a message that the loop accepts as a USER
turn (recognized subtype, not bot-authored, non-empty text). -/
def isScenarioUser (botUserId : String) (m : SlackMessage) : Bool :=
  !skipsMessage m && !isBotAuthored botUserId m && m.text != ""
/-- Specification-side classifier: a message that the loop accepts as an
ASSISTANT turn (recognized subtype, bot-authored). -/
def isScenarioBot (botUserId : String) (m : SlackMessage) : Bool :=
  !skipsMessage m && isBotAuthored botUserId m
/-- Specification-side turn builder mirroring the loop classification. -/
def toTurn (botUserId : String) (m : SlackMessage) : ConversationTurn :=
  if isBotAuthored botUserId m then { role := "assistant", content := m.text }
  else { role := "user", content := m.text }
/-- Specification-side cut: the chronological run of messages up to and
including the nth accepted USER message. -/
def uptoNthUser (botUserId : String) : Nat → List SlackMessage → List SlackMessage
  | _, [] => []
  | n, m :: rest =>
    if isScenarioUser botUserId m then
      if n ≤ 1 then [m] else m :: uptoNthUser botUserId (n - 1) rest
    else m :: uptoNthUser botUserId n rest
/-- Concrete 120-message thread used to witness claim C4: every sixth message
is a bot reply, the rest are user questions, timestamps already chronological. -/
def c4WitnessMsgs : List SlackMessage :=
  (List.range 120).map (fun i =>
    if i % 6 == 0 then
      { user := some "BOT", bot_id := none, subtype := some "bot_message",
        text := "reply", ts := Int.ofNat i }
    else
      { user := some "human", bot_id := none, subtype := none,
        text := "question", ts := Int.ofNat i })

/-! ## Association-list facts about the embedded JavaScript Map -/

theorem jsMapGet_set_self [DecidableEq α] (m : JsMap α β) (k : α) (v : β) :
    jsMapGet (jsMapSet m k v) k = some v := by
  induction m with
  | nil => simp [jsMapSet, jsMapGet]
  | cons p rest ih =>
    obtain ⟨k', v'⟩ := p
    by_cases h : k' = k
    · simp [jsMapSet, h, jsMapGet]
    · simp [jsMapSet, h, jsMapGet, ih]

theorem jsMapGet_set_ne [DecidableEq α] (m : JsMap α β) (k k' : α) (v : β)
    (h : k' ≠ k) : jsMapGet (jsMapSet m k v) k' = jsMapGet m k' := by
  induction m with
  | nil => simp [jsMapSet, jsMapGet, Ne.symm h]
  | cons p rest ih =>
    obtain ⟨k₁, v₁⟩ := p
    by_cases hk : k₁ = k
    · subst hk
      simp [jsMapSet, jsMapGet, Ne.symm h]
    · simp only [jsMapSet, if_neg hk, jsMapGet]
      by_cases hk' : k₁ = k'
      · simp [hk']
      · simp [hk', ih]

theorem jsMapSet_eq_append [DecidableEq α] (m : JsMap α β) (k : α) (v : β)
    (h : jsMapHasKey m k = false) : jsMapSet m k v = m ++ [(k, v)] := by
  induction m with
  | nil => simp [jsMapSet]
  | cons p rest ih =>
    obtain ⟨k₁, v₁⟩ := p
    simp only [jsMapHasKey, List.any_cons, Bool.or_eq_false_iff, decide_eq_false_iff_not] at h
    simp [jsMapSet, h.1, ih (by simpa [jsMapHasKey] using h.2)]

theorem jsMapGet_eq_none_iff [DecidableEq α] (m : JsMap α β) (k : α) :
    jsMapGet m k = none ↔ jsMapHasKey m k = false := by
  induction m with
  | nil => simp [jsMapGet, jsMapHasKey]
  | cons p rest ih =>
    obtain ⟨k₁, v₁⟩ := p
    by_cases hk : k₁ = k
    · simp [jsMapGet, jsMapHasKey, hk]
    · simp [jsMapGet, jsMapHasKey, hk, ih]

theorem jsMapSet_map_fst_of_hasKey [DecidableEq α] (m : JsMap α β) (k : α) (v : β)
    (h : jsMapHasKey m k = true) :
    (jsMapSet m k v).map Prod.fst = m.map Prod.fst := by
  induction m with
  | nil => simp [jsMapHasKey] at h
  | cons p rest ih =>
    obtain ⟨k₁, v₁⟩ := p
    by_cases hk : k₁ = k
    · simp [jsMapSet, hk]
    · simp only [jsMapHasKey, List.any_cons, decide_eq_true_eq] at h
      rcases Bool.or_eq_true_iff.mp h with h₁ | h₂
      · exact absurd (of_decide_eq_true h₁) hk
      · simp [jsMapSet, hk, ih h₂]

theorem jsMapGet_delete_ne [DecidableEq α] (m : JsMap α β) (k k' : α)
    (h : k' ≠ k) : jsMapGet (jsMapDelete m k) k' = jsMapGet m k' := by
  induction m with
  | nil => simp [jsMapDelete]
  | cons p rest ih =>
    obtain ⟨k₁, v₁⟩ := p
    by_cases hk : k₁ = k
    · subst hk
      simp [jsMapDelete, jsMapGet, Ne.symm h]
    · simp only [jsMapDelete, if_neg hk, jsMapGet]
      by_cases hk' : k₁ = k'
      · simp [hk']
      · simp [hk', ih]

theorem jsMapGet_delete_self_of_nodup [DecidableEq α] (m : JsMap α β) (k : α)
    (h : (m.map Prod.fst).Nodup) : jsMapGet (jsMapDelete m k) k = none := by
  induction m with
  | nil => simp [jsMapDelete, jsMapGet]
  | cons p rest ih =>
    obtain ⟨k₁, v₁⟩ := p
    simp only [List.map_cons, List.nodup_cons] at h
    by_cases hk : k₁ = k
    · subst hk
      simp only [jsMapDelete, if_pos rfl]
      rw [jsMapGet_eq_none_iff]
      by_contra hcon
      have hmem : k₁ ∈ rest.map Prod.fst := by
        rw [Bool.not_eq_false, jsMapHasKey, List.any_eq_true] at hcon
        obtain ⟨q, hq, hq2⟩ := hcon
        rw [decide_eq_true_eq] at hq2
        exact hq2 ▸ List.mem_map_of_mem Prod.fst hq
      exact h.1 hmem
    · simp [jsMapDelete, hk, jsMapGet, ih h.2]

theorem jsMapDelete_cons_self [DecidableEq α] (k : α) (v : β) (rest : JsMap α β) :
    jsMapDelete ((k, v) :: rest) k = rest := by
  simp [jsMapDelete]

theorem length_jsMapSet_le [DecidableEq α] (m : JsMap α β) (k : α) (v : β) :
    (jsMapSet m k v).length ≤ m.length + 1 := by
  induction m with
  | nil => simp [jsMapSet]
  | cons p rest ih =>
    obtain ⟨k₁, v₁⟩ := p
    by_cases hk : k₁ = k
    · simp [jsMapSet, hk]
    · simp only [jsMapSet, if_neg hk, List.length_cons]
      omega

/-! ## Claim C5: fold appends the new turn pair and trims from the front -/

theorem length_foldContext_le (existing : List ConversationTurn)
    (u a : ConversationTurn) :
    (foldContext existing u a).length ≤ THREAD_CONFIG_MAX_CONTEXT_MESSAGES * 2 := by
  unfold foldContext
  by_cases h : THREAD_CONFIG_MAX_CONTEXT_MESSAGES * 2 < (existing ++ [u, a]).length
  · simp only [if_pos h, List.length_drop]
    omega
  · simp only [if_neg h]
    omega

theorem length_foldl_foldContext_le (ps : List (ConversationTurn × ConversationTurn))
    (s : List ConversationTurn)
    (hs : s.length ≤ THREAD_CONFIG_MAX_CONTEXT_MESSAGES * 2) :
    (ps.foldl (fun acc p => foldContext acc p.1 p.2) s).length ≤
      THREAD_CONFIG_MAX_CONTEXT_MESSAGES * 2 := by
  induction ps generalizing s with
  | nil => exact hs
  | cons p rest ih => exact ih _ (length_foldContext_le _ _ _)

/-- Claim C5: for every existing turn sequence and every pair of new turns,
fold appends the two new turns and truncates from the front, so its result
never exceeds 2 * MAX_CONTEXT_MESSAGES turns, the surviving turns are a suffix
of (and hence in the same relative order as) the existing turns followed by the
two new turns, and the bound persists under any number of repeated folds. -/
theorem claim_c5 (existing : List ConversationTurn) (u a : ConversationTurn) :
    (foldContext existing u a).length ≤ THREAD_CONFIG_MAX_CONTEXT_MESSAGES * 2 ∧
    List.IsSuffix (foldContext existing u a) (existing ++ [u, a]) ∧
    ∀ ps : List (ConversationTurn × ConversationTurn),
      (ps.foldl (fun acc p => foldContext acc p.1 p.2)
          (foldContext existing u a)).length ≤
        THREAD_CONFIG_MAX_CONTEXT_MESSAGES * 2 := by
  refine ⟨length_foldContext_le _ _ _, ?_, ?_⟩
  · unfold foldContext
    by_cases h : THREAD_CONFIG_MAX_CONTEXT_MESSAGES * 2 < (existing ++ [u, a]).length
    · simp only [if_pos h]
      exact List.drop_suffix _ _
    · simp only [if_neg h]
      exact List.suffix_refl _
  · intro ps
    exact length_foldl_foldContext_le ps _ (length_foldContext_le _ _ _)

/-! ## Claim C9: rebuild swallows fetch failure and is total -/

/-- Claim C9: when the external fetch of thread messages fails, getThreadHistory
returns the empty sequence rather than raising; on a successful fetch it is the
total sort-then-format function, so the assembler never fails for
cache-internal reasons (it is a total function of the fetch outcome). -/
theorem claim_c9 (err : String) (botUserId : String) :
    getThreadHistory (.error err) botUserId = [] ∧
    ∀ raw, getThreadHistory (.ok raw) botUserId =
      formatThreadMessages botUserId (sortMessages raw) 0 := by
  exact ⟨rfl, fun raw => rfl⟩

/-! ## Claim C7: get misses on absent or expired keys, deleting expired entries -/

/-- Claim C7: get returns nothing when the key is absent, and nothing when
`now - lastWriteTime > TTL` (strictly greater), in which case the entry is
deleted from the store as a side effect (afterwards the key no longer resolves,
while every other key is untouched); otherwise it returns the stored turns. -/
theorem claim_c7 (c : ThreadContextCache) (threadId : String) (now : Int) :
    (jsMapGet c.cache threadId = none → c.get threadId now = (none, c)) ∧
    (∀ e, jsMapGet c.cache threadId = some e → c.ttl < now - e.timestamp →
      c.get threadId now =
        (none, { cache := jsMapDelete c.cache threadId, ttl := c.ttl }) ∧
      ((c.cache.map Prod.fst).Nodup →
        jsMapGet (c.get threadId now).2.cache threadId = none) ∧
      (∀ k', k' ≠ threadId →
        jsMapGet (c.get threadId now).2.cache k' = jsMapGet c.cache k')) ∧
    (∀ e, jsMapGet c.cache threadId = some e → now - e.timestamp ≤ c.ttl →
      c.get threadId now = (some e.context, c)) := by
  refine ⟨?_, ?_, ?_⟩
  · intro h
    unfold ThreadContextCache.get
    rw [h]
  · intro e he hexp
    have hget : c.get threadId now =
        (none, { cache := jsMapDelete c.cache threadId, ttl := c.ttl }) := by
      unfold ThreadContextCache.get
      rw [he]
      simp [if_pos hexp]
    refine ⟨hget, ?_, ?_⟩
    · intro hnodup
      rw [hget]
      exact jsMapGet_delete_self_of_nodup _ _ hnodup
    · intro k' hk'
      rw [hget]
      exact jsMapGet_delete_ne _ _ _ hk'
  · intro e he hfresh
    unfold ThreadContextCache.get
    rw [he]
    simp [if_neg (by omega : ¬ c.ttl < now - e.timestamp)]

theorem claim_c7_witness :
    (witnessCache.get "gone" 7000005 = (none, witnessCache)) ∧
    (witnessCache.get "old" 7000005 =
      (none, { cache := jsMapDelete witnessCache.cache "old", ttl := witnessCache.ttl })) ∧
    jsMapGet (witnessCache.get "old" 7000005).2.cache "old" = none ∧
    jsMapGet (witnessCache.get "old" 7000005).2.cache "new" = jsMapGet witnessCache.cache "new" ∧
    (witnessCache.get "new" 7000005 =
      (some [{ role := "assistant", content := "yo" }], witnessCache)) := by
  have h1 := (claim_c7 witnessCache "gone" 7000005).1 (by rfl)
  have h2 := (claim_c7 witnessCache "old" 7000005).2.1
    { context := [{ role := "user", content := "hi" }], timestamp := 0 }
    (by rfl) (by decide)
  have h3 := (claim_c7 witnessCache "new" 7000005).2.2
    { context := [{ role := "assistant", content := "yo" }], timestamp := 7000000 }
    (by rfl) (by decide)
  exact ⟨h1, h2.1, h2.2.1 (by decide), h2.2.2 "new" (by decide), h3⟩

/-! ## Claim C8: cleanup removes exactly the expired entries -/

/-- Claim C8: cleanup deletes exactly the set of entries with
`now - lastWriteTime > TTL` and no other entry (an entry survives iff it was
present and within TTL), keeps the survivors in order, and entries whose write
time lies in the future of `now` are unaffected (given the nonnegative TTL the
source always uses). -/
theorem claim_c8 (c : ThreadContextCache) (now : Int) (k : String) (e : CacheEntry) :
    ((k, e) ∈ (c.cleanup now).cache ↔
      ((k, e) ∈ c.cache ∧ now - e.timestamp ≤ c.ttl)) ∧
    List.Sublist (c.cleanup now).cache c.cache ∧
    (0 ≤ c.ttl → now < e.timestamp → (k, e) ∈ c.cache →
      (k, e) ∈ (c.cleanup now).cache) := by
  refine ⟨?_, ?_, ?_⟩
  · unfold ThreadContextCache.cleanup
    simp [List.mem_filter]
  · exact List.filter_sublist _
  · intro httl hfuture hmem
    unfold ThreadContextCache.cleanup
    simp only [List.mem_filter]
    exact ⟨hmem, by simp only [decide_eq_true_eq]; omega⟩

theorem claim_c8_witness :
    (("new", { context := [{ role := "assistant", content := "yo" }], timestamp := 7000000 }) ∈
      (witnessCache.cleanup 7000005).cache ↔
      (("new", { context := [{ role := "assistant", content := "yo" }], timestamp := 7000000 }) ∈
        witnessCache.cache ∧
        (7000005 : Int) - (7000000 : Int) ≤ witnessCache.ttl)) ∧
    (("new", ({ context := [{ role := "assistant", content := "yo" }], timestamp := 7000000 } : CacheEntry)) ∈
      (witnessCache.cleanup 6000000).cache) := by
  constructor
  · exact (claim_c8 witnessCache 7000005 "new"
      { context := [{ role := "assistant", content := "yo" }], timestamp := 7000000 }).1
  · exact (claim_c8 witnessCache 6000000 "new"
      { context := [{ role := "assistant", content := "yo" }], timestamp := 7000000 }).2.2
      (by decide) (by decide) (by decide)

/-! ## Claim C10: a fresh hit mutates nothing -/

/-- Claim C10: for every key present and not expired, get returns the stored
turns and the entire store state unchanged: the entry keeps its lastWriteTime
(reads never extend TTL), keeps its position in insertion order (reads never
affect capacity eviction), and every other entry is untouched. -/
theorem claim_c10 (c : ThreadContextCache) (threadId : String) (now : Int)
    (e : CacheEntry)
    (hfound : jsMapGet c.cache threadId = some e)
    (hfresh : now - e.timestamp ≤ c.ttl) :
    c.get threadId now = (some e.context, c) := by
  unfold ThreadContextCache.get
  rw [hfound]
  simp [if_neg (by omega : ¬ c.ttl < now - e.timestamp)]

theorem claim_c10_witness :
    witnessCache.get "new" 7000005 =
      (some ({ context := [{ role := "assistant", content := "yo" }],
               timestamp := 7000000 } : CacheEntry).context, witnessCache) :=
  claim_c10 witnessCache "new" 7000005
    { context := [{ role := "assistant", content := "yo" }], timestamp := 7000000 }
    (by rfl) (by decide)

/-! ## Claim C2: stored rate records only hold in-window timestamps -/

theorem runRate_record_length_le (calls : List (String × Int)) (m : RateLimitMap)
    (hm : ∀ u r, jsMapGet m u = some r → r.length ≤ MAX_REQUESTS_PER_WINDOW) :
    ∀ u r, jsMapGet (runRate m calls) u = some r →
      r.length ≤ MAX_REQUESTS_PER_WINDOW := by
  induction calls generalizing m with
  | nil => exact hm
  | cons c rest ih =>
    obtain ⟨u', t⟩ := c
    apply ih
    intro u r hr
    simp only [checkRateLimit] at hr
    split at hr
    · exact hm u r hr
    · by_cases hu : u = u'
      · subst hu
        rw [jsMapGet_set_self] at hr
        cases hr
        rename_i hcond
        have := List.length_filter_le
          (fun time => decide (t - time < RATE_LIMIT_WINDOW))
          ((jsMapGet m u).getD [])
        simp only [List.length_append, List.length_singleton]
        omega
      · rw [jsMapGet_set_ne _ _ _ _ hu] at hr
        exact hm u r hr

/-- Claim C2: immediately after every admit call, whether it returned true or
false, the stored rate record for that identity contains only timestamps
strictly inside the trailing window (now - t < W); stale timestamps are
discarded from the stored record at that next request. Records are those the
program can produce, i.e. states reached by running checkRateLimit from the
empty module-level map. -/
theorem claim_c2 (calls : List (String × Int)) (userId : String) (now : Int)
    (stored : List Int) (t : Int)
    (hstored : jsMapGet (checkRateLimit (runRate [] calls) userId now).2 userId =
      some stored)
    (ht : t ∈ stored) :
    now - t < RATE_LIMIT_WINDOW := by
  have hbound := runRate_record_length_le calls []
    (by intro u r h; simp [jsMapGet] at h)
  simp only [checkRateLimit] at hstored
  split at hstored
  · rename_i hcond
    rw [hstored] at hcond
    simp only [Option.getD_some] at hcond
    have hlen := hbound userId stored hstored
    have hfle := List.length_filter_le
      (fun time => decide (now - time < RATE_LIMIT_WINDOW)) stored
    have heq : stored.filter
        (fun time => decide (now - time < RATE_LIMIT_WINDOW)) = stored :=
      (List.filter_sublist stored).eq_of_length (by omega)
    have := (List.filter_eq_self.mp heq) t ht
    exact of_decide_eq_true this
  · rw [jsMapGet_set_self] at hstored
    cases hstored
    rcases List.mem_append.mp ht with hin | hnow
    · exact of_decide_eq_true (List.mem_filter.mp hin).2
    · rw [List.mem_singleton.mp hnow]
      simp [RATE_LIMIT_WINDOW]

theorem claim_c2_witness : (30000 : Int) - 0 < RATE_LIMIT_WINDOW :=
  claim_c2 [("u", 0), ("u", 15)] "u" 30000 [0, 15, 30000] 0 (by decide) (by decide)

/-! ## Claim C6: ten admits pass, the eleventh is denied, the window reopens -/

theorem runRateResults_admits_all (ts : List Int) (m : RateLimitMap) (u : String)
    (r : List Int)
    (hr : (jsMapGet m u).getD [] = r)
    (hlen : r.length + ts.length ≤ MAX_REQUESTS_PER_WINDOW)
    (hw : ∀ a b : Int, a ∈ r ++ ts → b ∈ ts → b - a < RATE_LIMIT_WINDOW) :
    (runRateResults m u ts).1 = List.replicate ts.length true ∧
    (jsMapGet (runRateResults m u ts).2 u).getD [] = r ++ ts := by
  induction ts generalizing m r with
  | nil =>
    exact ⟨by simp [runRateResults], by simpa [runRateResults] using hr⟩
  | cons t rest ih =>
    have hfilt : r.filter (fun time => decide (t - time < RATE_LIMIT_WINDOW)) = r := by
      rw [List.filter_eq_self]
      intro a ha
      exact decide_eq_true
        (hw a t (List.mem_append_left _ ha) (List.mem_cons_self _ _))
    have hnotfull : ¬ MAX_REQUESTS_PER_WINDOW ≤ r.length := by
      simp only [MAX_REQUESTS_PER_WINDOW] at hlen ⊢
      simp only [List.length_cons] at hlen
      omega
    have hstep : checkRateLimit m u t = (true, jsMapSet m u (r ++ [t])) := by
      simp only [checkRateLimit, hr, hfilt, if_neg hnotfull]
    have hrec' : (jsMapGet (jsMapSet m u (r ++ [t])) u).getD [] = r ++ [t] := by
      rw [jsMapGet_set_self]
      rfl
    have hlen' : (r ++ [t]).length + rest.length ≤ MAX_REQUESTS_PER_WINDOW := by
      simp only [List.length_append, List.length_singleton]
      simp only [List.length_cons] at hlen
      omega
    have hw' : ∀ a b : Int, a ∈ (r ++ [t]) ++ rest → b ∈ rest →
        b - a < RATE_LIMIT_WINDOW := by
      intro a b ha hb
      apply hw a b _ (List.mem_cons_of_mem _ hb)
      rcases List.mem_append.mp ha with h1 | h2
      · rcases List.mem_append.mp h1 with h3 | h4
        · exact List.mem_append_left _ h3
        · rw [List.mem_singleton.mp h4]
          exact List.mem_append_right _ (List.mem_cons_self _ _)
      · exact List.mem_append_right _ (List.mem_cons_of_mem _ h2)
    obtain ⟨h1, h2⟩ := ih (jsMapSet m u (r ++ [t])) (r ++ [t]) hrec' hlen' hw'
    refine ⟨?_, ?_⟩
    · simp only [runRateResults, hstep, h1, List.length_cons,
        List.replicate_succ]
    · simp only [runRateResults, hstep, h2]
      rw [← List.append_cons]

/-- Claim C6: with window 60000 ms and capacity 10, ten admit calls for one
identity within one second (all timestamps in [t0, t0 + 1000]) all return
true; an eleventh call still inside the window returns false and leaves the
map unchanged (its timestamp is not recorded); and a call at t0 + 61000, when
every recorded timestamp has left the trailing window, returns true again. -/
theorem claim_c6 (t0 t10 : Int) (ts : List Int)
    (hlen : ts.length = 10)
    (hbounds : ∀ t ∈ ts, t0 ≤ t ∧ t ≤ t0 + 1000)
    (h10 : t10 < t0 + 60000) :
    (runRateResults [] "U" ts).1 = List.replicate 10 true ∧
    (jsMapGet (runRateResults [] "U" ts).2 "U").getD [] = ts ∧
    checkRateLimit (runRateResults [] "U" ts).2 "U" t10 =
      (false, (runRateResults [] "U" ts).2) ∧
    (checkRateLimit (runRateResults [] "U" ts).2 "U" (t0 + 61000)).1 = true := by
  have hwin : ∀ a b : Int, a ∈ ([] : List Int) ++ ts → b ∈ ts →
      b - a < RATE_LIMIT_WINDOW := by
    intro a b ha hb
    simp only [List.nil_append] at ha
    have h1 := hbounds a ha
    have h2 := hbounds b hb
    simp only [RATE_LIMIT_WINDOW]
    omega
  obtain ⟨hres, hrec⟩ := runRateResults_admits_all ts [] "U" []
    (by rfl) (by simp [hlen, MAX_REQUESTS_PER_WINDOW]) hwin
  simp only [List.nil_append] at hrec
  rw [hlen] at hres
  have hfilt10 : ts.filter
      (fun time => decide (t10 - time < RATE_LIMIT_WINDOW)) = ts := by
    rw [List.filter_eq_self]
    intro a ha
    have := hbounds a ha
    simp only [RATE_LIMIT_WINDOW]
    exact decide_eq_true (by omega)
  have hdeny : checkRateLimit (runRateResults [] "U" ts).2 "U" t10 =
      (false, (runRateResults [] "U" ts).2) := by
    simp only [checkRateLimit, hrec, hfilt10]
    rw [if_pos (by rw [hlen]; decide)]
  have hfiltLater : ts.filter
      (fun time => decide (t0 + 61000 - time < RATE_LIMIT_WINDOW)) = [] := by
    rw [List.filter_eq_nil_iff]
    intro a ha
    have := hbounds a ha
    simp only [RATE_LIMIT_WINDOW, decide_eq_true_eq]
    omega
  have hallow : (checkRateLimit (runRateResults [] "U" ts).2 "U" (t0 + 61000)).1 = true := by
    simp only [checkRateLimit, hrec, hfiltLater]
    rw [if_neg (by simp [MAX_REQUESTS_PER_WINDOW])]
  exact ⟨hres, hrec, hdeny, hallow⟩

theorem claim_c6_witness :
    (runRateResults [] "U" [0, 100, 200, 300, 400, 500, 600, 700, 800, 900]).1 =
      List.replicate 10 true ∧
    (jsMapGet (runRateResults [] "U"
        [0, 100, 200, 300, 400, 500, 600, 700, 800, 900]).2 "U").getD [] =
      [0, 100, 200, 300, 400, 500, 600, 700, 800, 900] ∧
    checkRateLimit (runRateResults [] "U"
        [0, 100, 200, 300, 400, 500, 600, 700, 800, 900]).2 "U" 950 =
      (false, (runRateResults [] "U"
        [0, 100, 200, 300, 400, 500, 600, 700, 800, 900]).2) ∧
    (checkRateLimit (runRateResults [] "U"
        [0, 100, 200, 300, 400, 500, 600, 700, 800, 900]).2 "U"
        ((0 : Int) + 61000)).1 = true :=
  claim_c6 0 950 [0, 100, 200, 300, 400, 500, 600, 700, 800, 900]
    (by decide) (by decide) (by decide)

/-! ## Claims C1 and C3: capacity eviction -/

theorem charOfNat_toNat (i : Nat) (h : i < 55296) : (Char.ofNat i).toNat = i := by
  have hv : i.isValidChar := Or.inl h
  rw [Char.ofNat, dif_pos hv]
  rfl

theorem mkKey_injOn (i j : Nat) (hi : i < 55296) (hj : j < 55296)
    (h : mkKey i = mkKey j) : i = j := by
  have hdata : [Char.ofNat i] = [Char.ofNat j] :=
    congrArg String.data h
  have hchar : Char.ofNat i = Char.ofNat j := (List.cons.injEq _ _ _ _ ▸ hdata).1
  have := congrArg Char.toNat hchar
  rwa [charOfNat_toNat i hi, charOfNat_toNat j hj] at this

theorem mkKeys_range_nodup (n : Nat) (hn : n ≤ 55296) :
    ((List.range n).map mkKey).Nodup := by
  refine List.Nodup.map_on ?_ (List.nodup_range n)
  intro x hx y hy hxy
  exact mkKey_injOn x y
    (lt_of_lt_of_le (List.mem_range.mp hx) hn)
    (lt_of_lt_of_le (List.mem_range.mp hy) hn) hxy

theorem jsMapHasKey_append_single [DecidableEq α] (m : JsMap α β) (k key : α)
    (v : β) :
    jsMapHasKey (m ++ [(k, v)]) key = (jsMapHasKey m key || decide (k = key)) := by
  simp [jsMapHasKey, List.any_append]

theorem runPuts_append (c : ThreadContextCache)
    (l1 l2 : List (String × List ConversationTurn × Int)) :
    runPuts c (l1 ++ l2) = runPuts (runPuts c l1) l2 := by
  induction l1 generalizing c with
  | nil => rfl
  | cons op rest ih =>
    obtain ⟨k, ctx, now⟩ := op
    simp [runPuts, ih]

/-- Filling an under-capacity cache with fresh pairwise-distinct keys appends
the corresponding entries in call order. -/
theorem runPuts_fresh (ops : List (String × List ConversationTurn × Int)) :
    ∀ c : ThreadContextCache,
    c.cache.length + ops.length ≤ THREAD_CONFIG_MAX_CACHE_SIZE →
    (∀ p ∈ ops, jsMapHasKey c.cache p.1 = false) →
    (ops.map (fun p => p.1)).Nodup →
    (runPuts c ops).cache =
      c.cache ++ ops.map (fun p => (p.1, { context := p.2.1, timestamp := p.2.2 })) ∧
    (runPuts c ops).ttl = c.ttl := by
  induction ops with
  | nil =>
    intro c _ _ _
    exact ⟨by simp [runPuts], rfl⟩
  | cons op rest ih =>
    intro c hlen hfresh hnodup
    obtain ⟨k, ctx, now⟩ := op
    have hnotcap : ¬ THREAD_CONFIG_MAX_CACHE_SIZE ≤ c.cache.length := by
      simp only [List.length_cons] at hlen
      omega
    have hset : (c.set k ctx now).cache =
        c.cache ++ [(k, { context := ctx, timestamp := now })] := by
      simp only [ThreadContextCache.set, if_neg hnotcap]
      exact jsMapSet_eq_append _ _ _ (hfresh (k, ctx, now) (List.mem_cons_self _ _))
    have httl : (c.set k ctx now).ttl = c.ttl := rfl
    have hnodup0 : (k :: rest.map (fun p => p.1)).Nodup := by
      simpa only [List.map_cons] using hnodup
    have hnodup' := (List.nodup_cons.mp hnodup0).2
    have hknotin : k ∉ rest.map (fun p => p.1) := (List.nodup_cons.mp hnodup0).1
    have hlen' : (c.set k ctx now).cache.length + rest.length ≤
        THREAD_CONFIG_MAX_CACHE_SIZE := by
      rw [hset]
      simp only [List.length_append, List.length_singleton, List.length_nil,
        List.length_cons] at hlen ⊢
      omega
    have hfresh' : ∀ p ∈ rest, jsMapHasKey (c.set k ctx now).cache p.1 = false := by
      intro p hp
      rw [hset, jsMapHasKey_append_single]
      have h1 : jsMapHasKey c.cache p.1 = false :=
        hfresh p (List.mem_cons_of_mem _ hp)
      have h2 : k ≠ p.1 := by
        intro hkp
        exact hknotin (hkp ▸ List.mem_map_of_mem (fun q => q.1) hp)
      simp [h1, h2]
    obtain ⟨hc, ht⟩ := ih (c.set k ctx now) hlen' hfresh' hnodup'
    refine ⟨?_, ?_⟩
    · show (runPuts (c.set k ctx now) rest).cache = _
      rw [hc, hset]
      simp [List.append_assoc]
    · show (runPuts (c.set k ctx now) rest).ttl = _
      rw [ht, httl]

theorem threadContextCache_ext (a b : ThreadContextCache)
    (h1 : a.cache = b.cache) (h2 : a.ttl = b.ttl) : a = b := by
  cases a
  cases b
  simp_all

theorem filledCache_eq : filledCache = bigCache := by
  have hops : fillEntryOps.map (fun p => p.1) =
      (List.range THREAD_CONFIG_MAX_CACHE_SIZE).map mkKey := by
    simp [fillEntryOps, List.map_map]
  obtain ⟨hc, ht⟩ := runPuts_fresh fillEntryOps emptyCache
    (by
      simp only [emptyCache, mkThreadContextCache, List.length_nil,
        fillEntryOps, List.length_map, List.length_range]
      omega)
    (by intro p hp; rfl)
    (by rw [hops]; exact mkKeys_range_nodup _ (by decide))
  have hcache : filledCache.cache = bigCache.cache := by
    show (runPuts emptyCache fillEntryOps).cache = _
    rw [hc]
    simp only [emptyCache, mkThreadContextCache, List.nil_append]
    simp [fillEntryOps, bigCache, bigList, List.map_map]
  have httl : filledCache.ttl = bigCache.ttl := by
    show (runPuts emptyCache fillEntryOps).ttl = _
    rw [ht]
    norm_num [emptyCache, mkThreadContextCache, THREAD_CONFIG_CACHE_TTL_MINUTES,
      bigCache]
  exact threadContextCache_ext _ _ hcache httl

theorem jsMapHasKey_cons [DecidableEq α] (k0 : α) (v0 : β) (rest : JsMap α β)
    (key : α) :
    jsMapHasKey ((k0, v0) :: rest) key =
      (decide (k0 = key) || jsMapHasKey rest key) := by
  simp [jsMapHasKey]

theorem jsMapHasKey_of_get_some [DecidableEq α] (m : JsMap α β) (k : α) (v : β)
    (h : jsMapGet m k = some v) : jsMapHasKey m k = true := by
  by_contra hc
  rw [Bool.not_eq_true] at hc
  rw [(jsMapGet_eq_none_iff m k).mpr hc] at h
  cases h

theorem set_cache_below_cap (c : ThreadContextCache) (k : String)
    (ctx : List ConversationTurn) (now : Int)
    (h : ¬ THREAD_CONFIG_MAX_CACHE_SIZE ≤ c.cache.length) :
    (c.set k ctx now).cache =
      jsMapSet c.cache k { context := ctx, timestamp := now } := by
  simp only [ThreadContextCache.set, if_neg h]

theorem set_cache_at_cap (c : ThreadContextCache) (k : String)
    (ctx : List ConversationTurn) (now : Int) (k0 : String) (e0 : CacheEntry)
    (rest : JsMap String CacheEntry)
    (hcc : c.cache = (k0, e0) :: rest)
    (hcap : THREAD_CONFIG_MAX_CACHE_SIZE ≤ c.cache.length) :
    (c.set k ctx now).cache =
      jsMapSet rest k { context := ctx, timestamp := now } := by
  have hcap1 : THREAD_CONFIG_MAX_CACHE_SIZE ≤ rest.length + 1 := by
    rw [hcc] at hcap
    simpa using hcap
  simp only [ThreadContextCache.set, hcc, List.length_cons, if_pos hcap1]
  simp [jsMapFirstKey, jsMapDelete_cons_self]

/-- Claim C1 (amended): for every put on a threadKey already present, the entry
is replaced with lastWriteTime = now, and when the store is below capacity no
entry is evicted and every other key is untouched in place; but, contrary to
the original claim, when the store is at capacity the oldest-inserted entry is
evicted even though the key is already present (the keys other than the put
key and the evicted front key are preserved) — see claim_c1_counterexample. -/
theorem claim_c1 (c : ThreadContextCache) (k : String)
    (ctx : List ConversationTurn) (now : Int) (e : CacheEntry)
    (hpresent : jsMapGet c.cache k = some e) :
    (c.cache.length < THREAD_CONFIG_MAX_CACHE_SIZE →
      ((c.set k ctx now).cache.map Prod.fst = c.cache.map Prod.fst ∧
       jsMapGet (c.set k ctx now).cache k =
         some { context := ctx, timestamp := now } ∧
       ∀ k', k' ≠ k →
         jsMapGet (c.set k ctx now).cache k' = jsMapGet c.cache k')) ∧
    (∀ k0 e0 rest, c.cache = (k0, e0) :: rest →
      THREAD_CONFIG_MAX_CACHE_SIZE ≤ c.cache.length →
      k0 ≠ k → jsMapHasKey rest k0 = false →
      (jsMapGet (c.set k ctx now).cache k0 = none ∧
       jsMapGet (c.set k ctx now).cache k =
         some { context := ctx, timestamp := now } ∧
       ∀ k', k' ≠ k → k' ≠ k0 →
         jsMapGet (c.set k ctx now).cache k' = jsMapGet c.cache k')) := by
  constructor
  · intro hbelow
    have hset := set_cache_below_cap c k ctx now (by omega)
    refine ⟨?_, ?_, ?_⟩
    · rw [hset]
      exact jsMapSet_map_fst_of_hasKey _ _ _ (jsMapHasKey_of_get_some _ _ _ hpresent)
    · rw [hset]
      exact jsMapGet_set_self _ _ _
    · intro k' hk'
      rw [hset]
      exact jsMapGet_set_ne _ _ _ _ hk'
  · intro k0 e0 rest hcc hcap hk0 hrest
    have hset := set_cache_at_cap c k ctx now k0 e0 rest hcc hcap
    refine ⟨?_, ?_, ?_⟩
    · rw [hset, jsMapGet_set_ne _ _ _ _ hk0]
      exact (jsMapGet_eq_none_iff rest k0).mpr hrest
    · rw [hset]
      exact jsMapGet_set_self _ _ _
    · intro k' hk' hk0'
      rw [hset, jsMapGet_set_ne _ _ _ _ hk', hcc]
      simp [jsMapGet, Ne.symm hk0']

set_option maxRecDepth 10000 in
theorem claim_c1_witness :
    ((witnessCache.set "old" [] 9).cache.map Prod.fst =
      witnessCache.cache.map Prod.fst) ∧
    jsMapGet ((bigCache.set (mkKey 5) [] 7).cache) (mkKey 0) = none ∧
    jsMapGet ((bigCache.set (mkKey 5) [] 7).cache) (mkKey 5) =
      some { context := [], timestamp := 7 } := by
  refine ⟨?_, ?_, ?_⟩
  · exact ((claim_c1 witnessCache "old" [] 9
      { context := [{ role := "user", content := "hi" }], timestamp := 0 }
      (by rfl)).1 (by decide)).1
  · exact ((claim_c1 bigCache (mkKey 5) [] 7
      { context := [], timestamp := 0 } (by decide)).2
      (mkKey 0) { context := [], timestamp := 0 } bigTail
      (by decide) (by decide) (by decide) (by decide)).1
  · exact ((claim_c1 bigCache (mkKey 5) [] 7
      { context := [], timestamp := 0 } (by decide)).2
      (mkKey 0) { context := [], timestamp := 0 } bigTail
      (by decide) (by decide) (by decide) (by decide)).2.1

set_option maxRecDepth 10000 in
/-- Counterexample to claim C1 as stated: filledCache is the store reached by
1000 puts of the fresh keys mkKey 0 .. mkKey 999 from the empty store, so it is
at capacity and mkKey 5 is already present. The claim says a put on a present
key evicts no entry, yet the put of mkKey 5 evicts the entry mkKey 0. -/
theorem claim_c1_counterexample :
    (jsMapGet filledCache.cache (mkKey 5)).isSome = true ∧
    (jsMapGet filledCache.cache (mkKey 0)).isSome = true ∧
    jsMapGet ((filledCache.set (mkKey 5) [] 7).cache) (mkKey 0) = none ∧
    jsMapGet ((filledCache.set (mkKey 5) [] 7).cache) (mkKey 5) =
      some { context := [], timestamp := 7 } := by
  rw [filledCache_eq]
  exact ⟨by decide, by decide, by decide, by decide⟩

theorem length_set_le (c : ThreadContextCache) (k : String)
    (ctx : List ConversationTurn) (now : Int)
    (h : c.cache.length ≤ THREAD_CONFIG_MAX_CACHE_SIZE) :
    (c.set k ctx now).cache.length ≤ THREAD_CONFIG_MAX_CACHE_SIZE := by
  by_cases hcap : THREAD_CONFIG_MAX_CACHE_SIZE ≤ c.cache.length
  · cases hc : c.cache with
    | nil =>
      rw [hc] at hcap
      simp [THREAD_CONFIG_MAX_CACHE_SIZE] at hcap
    | cons p rest =>
      obtain ⟨k0, v0⟩ := p
      rw [set_cache_at_cap c k ctx now k0 v0 rest hc hcap]
      have h1 := length_jsMapSet_le rest k
        ({ context := ctx, timestamp := now } : CacheEntry)
      have h2 : c.cache.length = rest.length + 1 := by rw [hc]; rfl
      omega
  · rw [set_cache_below_cap c k ctx now hcap]
    have h1 := length_jsMapSet_le c.cache k
      ({ context := ctx, timestamp := now } : CacheEntry)
    omega

theorem runPuts_length_le (ops : List (String × List ConversationTurn × Int)) :
    ∀ c : ThreadContextCache,
    c.cache.length ≤ THREAD_CONFIG_MAX_CACHE_SIZE →
    (runPuts c ops).cache.length ≤ THREAD_CONFIG_MAX_CACHE_SIZE := by
  induction ops with
  | nil => intro c h; exact h
  | cons op rest ih =>
    intro c h
    obtain ⟨k, ctx, now⟩ := op
    exact ih _ (length_set_le c k ctx now h)

/-- Claim C3 (amended): the store size never exceeds MAX_CACHE_SIZE over any
sequence of puts from a state within the bound, and an insertion of a new key
at capacity evicts exactly the entry at the front of the insertion order,
keeping every other entry in order; replacing puts below capacity leave the
insertion order unchanged; but, contrary to the original claim, the order used
for eviction is not first-insertion order: a replacing put at capacity deletes
its key from the front and re-appends it at the back (fourth conjunct), so a
later capacity eviction can remove a key first-inserted later than a surviving
one — see claim_c3_counterexample. -/
theorem claim_c3 :
    (∀ (ops : List (String × List ConversationTurn × Int))
       (c : ThreadContextCache),
      c.cache.length ≤ THREAD_CONFIG_MAX_CACHE_SIZE →
      (runPuts c ops).cache.length ≤ THREAD_CONFIG_MAX_CACHE_SIZE) ∧
    (∀ (c : ThreadContextCache) (k : String) (ctx : List ConversationTurn)
       (now : Int) (k0 : String) (e0 : CacheEntry) (rest : JsMap String CacheEntry),
      c.cache = (k0, e0) :: rest →
      THREAD_CONFIG_MAX_CACHE_SIZE ≤ c.cache.length →
      jsMapHasKey c.cache k = false →
      (c.set k ctx now).cache = rest ++ [(k, { context := ctx, timestamp := now })]) ∧
    (∀ (c : ThreadContextCache) (k : String) (ctx : List ConversationTurn)
       (now : Int),
      c.cache.length < THREAD_CONFIG_MAX_CACHE_SIZE →
      jsMapHasKey c.cache k = true →
      (c.set k ctx now).cache.map Prod.fst = c.cache.map Prod.fst) ∧
    (∀ (c : ThreadContextCache) (k : String) (ctx : List ConversationTurn)
       (now : Int) (e0 : CacheEntry) (rest : JsMap String CacheEntry),
      c.cache = (k, e0) :: rest →
      THREAD_CONFIG_MAX_CACHE_SIZE ≤ c.cache.length →
      jsMapHasKey rest k = false →
      (c.set k ctx now).cache = rest ++ [(k, { context := ctx, timestamp := now })]) := by
  refine ⟨fun ops c h => runPuts_length_le ops c h, ?_, ?_, ?_⟩
  · intro c k ctx now k0 e0 rest hcc hcap hfresh
    rw [set_cache_at_cap c k ctx now k0 e0 rest hcc hcap]
    apply jsMapSet_eq_append
    rw [hcc, jsMapHasKey_cons] at hfresh
    exact (Bool.or_eq_false_iff.mp hfresh).2
  · intro c k ctx now hbelow hhas
    rw [set_cache_below_cap c k ctx now (by omega)]
    exact jsMapSet_map_fst_of_hasKey _ _ _ hhas
  · intro c k ctx now e0 rest hcc hcap hfresh
    rw [set_cache_at_cap c k ctx now k e0 rest hcc hcap]
    exact jsMapSet_eq_append _ _ _ hfresh

set_option maxRecDepth 10000 in
theorem claim_c3_witness :
    (runPuts emptyCache fillEntryOps).cache.length ≤ THREAD_CONFIG_MAX_CACHE_SIZE ∧
    (bigCache.set (mkKey 1000) [] 5).cache =
      bigTail ++ [(mkKey 1000, { context := [], timestamp := 5 })] ∧
    (witnessCache.set "old" [] 9).cache.map Prod.fst =
      witnessCache.cache.map Prod.fst ∧
    (bigCache.set (mkKey 0) [] 5).cache =
      bigTail ++ [(mkKey 0, { context := [], timestamp := 5 })] := by
  refine ⟨?_, ?_, ?_, ?_⟩
  · exact claim_c3.1 fillEntryOps emptyCache (by decide)
  · exact claim_c3.2.1 bigCache (mkKey 1000) [] 5 (mkKey 0)
      { context := [], timestamp := 0 } bigTail (by decide) (by decide) (by decide)
  · exact claim_c3.2.2.1 witnessCache "old" [] 9 (by decide) (by decide)
  · exact claim_c3.2.2.2 bigCache (mkKey 0) [] 5
      { context := [], timestamp := 0 } bigTail (by decide) (by decide) (by decide)

set_option maxRecDepth 10000 in
/-- Counterexample to claim C3 as stated: run the 1000 fresh fill puts (keys
mkKey 0 .. mkKey 999, in that first-insertion order), then a replacing put on
the existing key mkKey 0, then a put of the new key mkKey 1000 at capacity.
Before the final put both mkKey 0 and mkKey 1 are present and the store is at
capacity; first-insertion order, which the claim says is unaffected by
replacing puts, would make mkKey 0 the least-recently-inserted surviving entry
and thus the one evicted by the final insertion. Instead the final put evicts
mkKey 1 while mkKey 0 survives. -/
theorem claim_c3_counterexample :
    (jsMapGet (runPuts emptyCache (fillEntryOps ++ [(mkKey 0, [], 1)])).cache
      (mkKey 1)).isSome = true ∧
    (jsMapGet (runPuts emptyCache (fillEntryOps ++ [(mkKey 0, [], 1)])).cache
      (mkKey 0)).isSome = true ∧
    (runPuts emptyCache (fillEntryOps ++ [(mkKey 0, [], 1)])).cache.length =
      THREAD_CONFIG_MAX_CACHE_SIZE ∧
    jsMapGet (runPuts emptyCache
      (fillEntryOps ++ [(mkKey 0, [], 1), (mkKey 1000, [], 2)])).cache
      (mkKey 1) = none ∧
    (jsMapGet (runPuts emptyCache
      (fillEntryOps ++ [(mkKey 0, [], 1), (mkKey 1000, [], 2)])).cache
      (mkKey 0)).isSome = true ∧
    (jsMapGet (runPuts emptyCache
      (fillEntryOps ++ [(mkKey 0, [], 1), (mkKey 1000, [], 2)])).cache
      (mkKey 1000)).isSome = true := by
  have hfill : runPuts emptyCache fillEntryOps = bigCache := filledCache_eq
  have h1 : runPuts emptyCache (fillEntryOps ++ [(mkKey 0, [], 1)]) =
      runPuts bigCache [(mkKey 0, [], 1)] := by
    rw [runPuts_append, hfill]
  have h2 : runPuts emptyCache
      (fillEntryOps ++ [(mkKey 0, [], 1), (mkKey 1000, [], 2)]) =
      runPuts bigCache [(mkKey 0, [], 1), (mkKey 1000, [], 2)] := by
    rw [runPuts_append, hfill]
  rw [h1, h2]
  exact ⟨by decide, by decide, by decide, by decide, by decide, by decide⟩

/-! ## Claim C4: rebuild keeps 100 user turns and the assistant turns before the cutoff -/

theorem formatThreadMessages_eq_upto (botUserId : String) :
    ∀ (msgs : List SlackMessage) (cnt : Nat),
    (∀ m ∈ msgs, isScenarioUser botUserId m = true ∨
      isScenarioBot botUserId m = true) →
    cnt + 1 ≤ THREAD_CONFIG_MAX_CONTEXT_MESSAGES →
    THREAD_CONFIG_MAX_CONTEXT_MESSAGES - cnt ≤
      msgs.countP (isScenarioUser botUserId) →
    formatThreadMessages botUserId msgs cnt =
      (uptoNthUser botUserId (THREAD_CONFIG_MAX_CONTEXT_MESSAGES - cnt)
        msgs).map (toTurn botUserId) := by
  intro msgs
  induction msgs with
  | nil =>
    intro cnt hall hcnt hcount
    simp only [List.countP_nil] at hcount
    omega
  | cons m rest ih =>
    intro cnt hall hcnt hcount
    have hallrest := fun x hx => hall x (List.mem_cons_of_mem _ hx)
    rcases hall m (List.mem_cons_self _ _) with hu | hb
    · have hskip : skipsMessage m = false := by
        simp only [isScenarioUser, Bool.and_eq_true, Bool.not_eq_true'] at hu
        exact hu.1.1
      have hbot : isBotAuthored botUserId m = false := by
        simp only [isScenarioUser, Bool.and_eq_true, Bool.not_eq_true'] at hu
        exact hu.1.2
      have htext : (m.text != "") = true := by
        simp only [isScenarioUser, Bool.and_eq_true] at hu
        exact hu.2
      by_cases hfull : THREAD_CONFIG_MAX_CONTEXT_MESSAGES ≤ cnt + 1
      · have hn1 : THREAD_CONFIG_MAX_CONTEXT_MESSAGES - cnt = 1 := by omega
        simp only [formatThreadMessages, hskip, Bool.false_eq_true, if_false,
          hbot, htext, if_true, if_pos hfull, uptoNthUser, hu, hn1,
          Nat.le_refl, List.map_cons, List.map_nil]
        simp [toTurn, hbot]
      · have hn2 : ¬ (THREAD_CONFIG_MAX_CONTEXT_MESSAGES - cnt ≤ 1) := by omega
        have hrec := ih (cnt + 1) hallrest (by omega)
          (by
            rw [List.countP_cons, if_pos hu] at hcount
            omega)
        have hsub : THREAD_CONFIG_MAX_CONTEXT_MESSAGES - (cnt + 1) =
            THREAD_CONFIG_MAX_CONTEXT_MESSAGES - cnt - 1 := by omega
        simp only [formatThreadMessages, hskip, Bool.false_eq_true, if_false,
          hbot, htext, if_true, if_neg hfull, uptoNthUser, hu, if_neg hn2,
          List.map_cons]
        rw [hrec, hsub]
        simp [toTurn, hbot]
    · have hskip : skipsMessage m = false := by
        simp only [isScenarioBot, Bool.and_eq_true, Bool.not_eq_true'] at hb
        exact hb.1
      have hbot : isBotAuthored botUserId m = true := by
        simp only [isScenarioBot, Bool.and_eq_true] at hb
        exact hb.2
      have huser : isScenarioUser botUserId m = false := by
        simp [isScenarioUser, hbot]
      have hrec := ih cnt hallrest hcnt
        (by
          rw [List.countP_cons, if_neg (by simp [huser])] at hcount
          exact hcount)
      simp only [formatThreadMessages, hskip, Bool.false_eq_true, if_false,
        hbot, if_true, uptoNthUser, huser, List.map_cons]
      rw [hrec]
      simp [toTurn, hbot]

theorem countP_user_uptoNthUser (botUserId : String) :
    ∀ (msgs : List SlackMessage) (n : Nat),
    (∀ m ∈ msgs, isScenarioUser botUserId m = true ∨
      isScenarioBot botUserId m = true) →
    1 ≤ n →
    n ≤ msgs.countP (isScenarioUser botUserId) →
    ((uptoNthUser botUserId n msgs).map (toTurn botUserId)).countP
      (fun t => t.role == "user") = n := by
  intro msgs
  induction msgs with
  | nil =>
    intro n hall hn hcount
    simp only [List.countP_nil] at hcount
    omega
  | cons m rest ih =>
    intro n hall hn hcount
    have hallrest := fun x hx => hall x (List.mem_cons_of_mem _ hx)
    rcases hall m (List.mem_cons_self _ _) with hu | hb
    · have hbot : isBotAuthored botUserId m = false := by
        simp only [isScenarioUser, Bool.and_eq_true, Bool.not_eq_true'] at hu
        exact hu.1.2
      have hturn : toTurn botUserId m = { role := "user", content := m.text } := by
        simp [toTurn, hbot]
      by_cases h1 : n ≤ 1
      · have hn1 : n = 1 := by omega
        simp [uptoNthUser, hu, if_pos h1, hturn, hn1]
      · have hrec := ih (n - 1) hallrest (by omega)
          (by
            rw [List.countP_cons, if_pos hu] at hcount
            omega)
        simp only [uptoNthUser, hu, if_true, if_neg h1, List.map_cons,
          List.countP_cons, hrec, hturn]
        simp
        omega
    · have hbot : isBotAuthored botUserId m = true := by
        simp only [isScenarioBot, Bool.and_eq_true] at hb
        exact hb.2
      have huser : isScenarioUser botUserId m = false := by
        simp [isScenarioUser, hbot]
      have hturn : toTurn botUserId m =
          { role := "assistant", content := m.text } := by
        simp [toTurn, hbot]
      have hrec := ih n hallrest hn
        (by
          rw [List.countP_cons, if_neg (by simp [huser])] at hcount
          exact hcount)
      simp only [uptoNthUser, huser, Bool.false_eq_true, if_false,
        List.map_cons, List.countP_cons, hrec, hturn]
      simp

/-- Claim C4: for 120 chronologically ordered raw messages, 100 of them
accepted user messages (recognized subtype, non-bot author, non-empty text)
and 20 bot-authored, rebuild returns exactly the messages up to and including
the 100th user message mapped to turns in order — hence exactly 100 USER turns
plus every ASSISTANT turn whose message precedes the 100th user message, in
chronological order; messages with an unrecognized subtype are discarded
(third conjunct). -/
theorem claim_c4 (botUserId : String) (msgs : List SlackMessage)
    (hall : ∀ m ∈ msgs, isScenarioUser botUserId m = true ∨
      isScenarioBot botUserId m = true)
    (husers : msgs.countP (isScenarioUser botUserId) =
      THREAD_CONFIG_MAX_CONTEXT_MESSAGES)
    (hbots : msgs.countP (isScenarioBot botUserId) = 20)
    (hlen : msgs.length = 120)
    (hsorted : sortMessages msgs = msgs) :
    getThreadHistory (.ok msgs) botUserId =
      (uptoNthUser botUserId THREAD_CONFIG_MAX_CONTEXT_MESSAGES msgs).map
        (toTurn botUserId) ∧
    (getThreadHistory (.ok msgs) botUserId).countP
      (fun t => t.role == "user") = THREAD_CONFIG_MAX_CONTEXT_MESSAGES ∧
    (∀ (m : SlackMessage) (rest : List SlackMessage) (c : Nat),
      skipsMessage m = true →
      formatThreadMessages botUserId (m :: rest) c =
        formatThreadMessages botUserId rest c) := by
  have hmain : getThreadHistory (.ok msgs) botUserId =
      (uptoNthUser botUserId THREAD_CONFIG_MAX_CONTEXT_MESSAGES msgs).map
        (toTurn botUserId) := by
    show formatThreadMessages botUserId (sortMessages msgs) 0 = _
    rw [hsorted]
    have := formatThreadMessages_eq_upto botUserId msgs 0 hall
      (by decide) (by rw [husers]; omega)
    simpa using this
  refine ⟨hmain, ?_, ?_⟩
  · rw [hmain]
    exact countP_user_uptoNthUser botUserId msgs
      THREAD_CONFIG_MAX_CONTEXT_MESSAGES hall (by decide) (by rw [husers])
  · intro m rest c h
    simp [formatThreadMessages, h]

set_option maxRecDepth 4000 in
theorem claim_c4_witness :
    (getThreadHistory (.ok c4WitnessMsgs) "BOT").countP
      (fun t => t.role == "user") = THREAD_CONFIG_MAX_CONTEXT_MESSAGES :=
  (claim_c4 "BOT" c4WitnessMsgs (by decide) (by decide) (by decide)
    (by decide)
    (by
      show List.mergeSort c4WitnessMsgs (fun a b => decide (a.ts ≤ b.ts)) =
        c4WitnessMsgs
      exact List.mergeSort_of_sorted (by decide))).2.1
